import Mathlib

/-!
Verification of the until_needle byte-stream scanning library.

The development shallowly embeds the two scan-loop variants of the crate
(`src/io.rs`, the blocking variant over a buffered reader, and
`src/futures.rs`, the suspending variant) together with the literal
byte-sequence pattern matcher of `src/needle.rs`, and proves the
behavioural properties stated in the crate's specification.

Bytes are modelled as natural numbers (only equality of bytes matters to
the code). The buffered source, an external collaborator of the crate, is
modelled from its fill/consume contract: a buffer of currently available,
unconsumed bytes plus a queue of events (data chunks arriving, transient
interruptions, fatal I/O errors).
-/

namespace UntilNeedle

abbrev Byte := Nat

/-! ### Pattern matcher (src/needle.rs, impl Needle for [u8]) -/

/-- Translation of Rust slice windows: all contiguous sub-slices of length
`n`, in order. Only used with `n ≥ 1` (Rust's `windows(0)` panics, which
`findin` models before calling this). -/
def windows (n : Nat) : List Byte → List (List Byte)
  | [] => []
  | x :: xs =>
    if (x :: xs).length < n then []
    else (x :: xs).take n :: windows n xs

/-- Translation of Iterator::position: index of the first element
satisfying the predicate. -/
def position {α : Type} (p : α → Bool) : List α → Option Nat
  | [] => none
  | x :: xs => if p x then some 0 else (position p xs).map (· + 1)

/-- Translation of the literal byte-slice matcher: first occurrence of the
needle in the haystack as a half-open range, found by scanning all windows
of the needle's length. Rust's slice windows method panics when the window
size is zero, so an empty needle is modelled as an error. -/
def findin (needle haystack : List Byte) : Except Unit (Option (Nat × Nat)) :=
  if needle.length = 0 then .error ()
  else
    .ok ((position (fun w => w == needle) (windows needle.length haystack)).map
      (fun pos => (pos, pos + needle.length)))

/-- Specification-side predicate: the needle occurs byte-for-byte at
offset s of the haystack. -/
def matchAt (needle haystack : List Byte) (s : Nat) : Prop :=
  s + needle.length ≤ haystack.length ∧
    (haystack.drop s).take needle.length = needle

instance (needle haystack : List Byte) (s : Nat) : Decidable (matchAt needle haystack s) := by
  unfold matchAt
  infer_instance

theorem matchAt_cons {needle : List Byte} {x : Byte} {xs : List Byte} {i : Nat} :
    matchAt needle (x :: xs) (i + 1) ↔ matchAt needle xs i := by
  unfold matchAt
  simp only [List.drop_succ_cons, List.length_cons]
  constructor
  · rintro ⟨h1, h2⟩
    exact ⟨by omega, h2⟩
  · rintro ⟨h1, h2⟩
    exact ⟨by omega, h2⟩

theorem matchAt_zero {needle haystack : List Byte} :
    matchAt needle haystack 0 ↔
      needle.length ≤ haystack.length ∧ haystack.take needle.length = needle := by
  unfold matchAt
  simp

theorem position_windows_some {needle : List Byte} (hn : needle ≠ []) :
    ∀ (haystack : List Byte) (i : Nat),
      position (fun w => w == needle) (windows needle.length haystack) = some i ↔
        (matchAt needle haystack i ∧ ∀ j, j < i → ¬ matchAt needle haystack j) := by
  have hlen : 0 < needle.length := List.length_pos.mpr hn
  intro haystack
  induction haystack with
  | nil =>
    intro i
    simp only [windows, position]
    constructor
    · intro h
      exact absurd h (by simp)
    · rintro ⟨⟨h1, _⟩, _⟩
      simp only [List.length_nil, Nat.le_zero, Nat.add_eq_zero] at h1
      omega
  | cons x xs ih =>
    intro i
    by_cases hl : (x :: xs).length < needle.length
    · simp only [windows, if_pos hl, position]
      constructor
      · intro h
        exact absurd h (by simp)
      · rintro ⟨⟨h1, _⟩, _⟩
        simp only [List.length_cons] at h1 hl
        omega
    · simp only [windows, if_neg hl]
      by_cases hhead : ((x :: xs).take needle.length == needle) = true
      · have heq : (x :: xs).take needle.length = needle := by
          exact eq_of_beq hhead
        have hm0 : matchAt needle (x :: xs) 0 := matchAt_zero.mpr ⟨by omega, heq⟩
        simp only [position, hhead, if_pos]
        constructor
        · intro h
          have : i = 0 := by
            cases h
            rfl
          subst this
          exact ⟨hm0, by omega⟩
        · rintro ⟨_, hmin⟩
          cases i with
          | zero => rfl
          | succ i' => exact absurd hm0 (hmin 0 (Nat.succ_pos i'))
      · have hne : (x :: xs).take needle.length ≠ needle := by
          intro h
          exact hhead (beq_iff_eq.mpr h)
        have hnm0 : ¬ matchAt needle (x :: xs) 0 := by
          intro h
          exact hne (matchAt_zero.mp h).2
        simp only [position, hhead, if_neg, Bool.false_eq_true, not_false_iff]
        cases i with
        | zero =>
          constructor
          · intro h
            rcases Option.map_eq_some'.mp h with ⟨a, _, ha⟩
            omega
          · rintro ⟨hm, _⟩
            exact absurd hm hnm0
        | succ i' =>
          constructor
          · intro h
            rcases Option.map_eq_some'.mp h with ⟨a, ha, hai⟩
            have ha' : position (fun w => w == needle) (windows needle.length xs) = some i' := by
              rwa [show a = i' by omega] at ha
            rcases (ih i').mp ha' with ⟨hm, hmin⟩
            refine ⟨matchAt_cons.mpr hm, ?_⟩
            intro j hj
            cases j with
            | zero => exact hnm0
            | succ j' =>
              intro hc
              exact hmin j' (by omega) (matchAt_cons.mp hc)
          · rintro ⟨hm, hmin⟩
            have hm' : matchAt needle xs i' := matchAt_cons.mp hm
            have hmin' : ∀ j, j < i' → ¬ matchAt needle xs j := by
              intro j hj hc
              exact hmin (j + 1) (by omega) (matchAt_cons.mpr hc)
            have := (ih i').mpr ⟨hm', hmin'⟩
            simp [this]

theorem position_windows_none {needle : List Byte} (hn : needle ≠ []) (haystack : List Byte) :
    position (fun w => w == needle) (windows needle.length haystack) = none ↔
      ∀ i, ¬ matchAt needle haystack i := by
  constructor
  · intro h i hm
    by_cases hex : ∃ j, matchAt needle haystack j
    · have hfind := Nat.find_spec hex
      have hmin := fun j hj => Nat.find_min hex (m := j) hj
      have := (position_windows_some hn haystack (Nat.find hex)).mpr ⟨hfind, hmin⟩
      rw [h] at this
      exact Option.noConfusion this
    · exact hex ⟨i, hm⟩
  · intro h
    cases hp : position (fun w => w == needle) (windows needle.length haystack) with
    | none => rfl
    | some i =>
      rcases (position_windows_some hn haystack i).mp hp with ⟨hm, _⟩
      exact absurd hm (h i)

theorem findin_some_iff {needle haystack : List Byte} (hn : needle ≠ []) {s e : Nat} :
    findin needle haystack = .ok (some (s, e)) ↔
      (e = s + needle.length ∧ matchAt needle haystack s ∧
        ∀ t, t < s → ¬ matchAt needle haystack t) := by
  unfold findin
  rw [if_neg (fun h => hn (List.length_eq_zero.mp h))]
  constructor
  · intro h
    have h' := Except.ok.inj h
    rcases Option.map_eq_some'.mp h' with ⟨pos, hpos, hpe⟩
    have hs : pos = s := congrArg Prod.fst hpe
    have he : pos + needle.length = e := congrArg Prod.snd hpe
    have hpos' : position (fun w => w == needle) (windows needle.length haystack) = some s := by
      rwa [hs] at hpos
    rcases (position_windows_some hn haystack s).mp hpos' with ⟨hm, hmin⟩
    exact ⟨by omega, hm, hmin⟩
  · rintro ⟨he, hm, hmin⟩
    have := (position_windows_some hn haystack s).mpr ⟨hm, hmin⟩
    rw [this]
    simp [he]

theorem findin_none_iff {needle haystack : List Byte} (hn : needle ≠ []) :
    findin needle haystack = .ok none ↔ ∀ s, ¬ matchAt needle haystack s := by
  unfold findin
  rw [if_neg (fun h => hn (List.length_eq_zero.mp h))]
  rw [← position_windows_none hn haystack]
  constructor
  · intro h
    have h' := Except.ok.inj h
    exact Option.map_eq_none'.mp h'
  · intro h
    rw [h]
    rfl

theorem findin_needle_ne_nil {needle haystack : List Byte} {o : Option (Nat × Nat)}
    (h : findin needle haystack = .ok o) : needle ≠ [] := by
  intro hc
  subst hc
  exact Except.noConfusion h

theorem findin_some_bounds {needle haystack : List Byte} {s e : Nat}
    (h : findin needle haystack = .ok (some (s, e))) :
    s ≤ e ∧ e ≤ haystack.length ∧ e = s + needle.length := by
  have hn := findin_needle_ne_nil h
  rcases (findin_some_iff hn).mp h with ⟨he, ⟨h1, _⟩, _⟩
  exact ⟨by omega, by omega, he⟩

theorem findin_nil {needle : List Byte} (hn : needle ≠ []) :
    findin needle [] = .ok none := by
  rw [findin_none_iff hn]
  intro s hm
  have h1 := hm.1
  have : 0 < needle.length := List.length_pos.mpr hn
  simp only [List.length_nil] at h1
  omega

theorem matchAt_of_append {needle buf ext : List Byte} {s : Nat}
    (h : matchAt needle (buf ++ ext) s) (hle : s + needle.length ≤ buf.length) :
    matchAt needle buf s := by
  obtain ⟨_, h2⟩ := h
  refine ⟨hle, ?_⟩
  have hlen : needle.length ≤ (buf.drop s).length := by
    rw [List.length_drop]
    omega
  have hsl : ((buf ++ ext).drop s).take needle.length = (buf.drop s).take needle.length := by
    rw [List.drop_append_eq_append_drop, Nat.sub_eq_zero_of_le (by omega : s ≤ buf.length),
      List.drop_zero, List.take_append_eq_append_take,
      Nat.sub_eq_zero_of_le hlen, List.take_zero, List.append_nil]
  rw [← hsl]
  exact h2

theorem findin_append_none_lt {needle buf ext : List Byte} {ms me : Nat}
    (h0 : findin needle buf = .ok none)
    (h1 : findin needle (buf ++ ext) = .ok (some (ms, me))) :
    buf.length < me := by
  have hn := findin_needle_ne_nil h0
  rcases (findin_some_iff hn).mp h1 with ⟨he, hm, _⟩
  by_contra hc
  exact ((findin_none_iff hn).mp h0 ms) (matchAt_of_append hm (by omega))

/-! ### The buffered source

Modelled from the spec: the source is an external collaborator offering a
fill operation (a view of currently available, unconsumed bytes; an empty
view signals EOF; fill can also report a transient interrupted condition
or a fatal I/O error) and a consume operation (permanently advance past a
prefix of the view). A source value holds the currently buffered window
plus a queue of pending events: data chunks that arrive over time,
interruptions, and fatal errors. -/

inductive SrcEvent where
  | chunk (bytes : List Byte)
  | interrupted
  | fatal (code : Nat)
deriving DecidableEq, Repr

inductive IOError where
  | interrupted
  | other (code : Nat)
deriving DecidableEq, Repr

/-- Errors a whole scan run can end with: a propagated I/O error, or the
panic raised by the matcher on an empty needle. -/
inductive RunError where
  | ioErr (e : IOError)
  | emptyNeedlePanic
deriving DecidableEq, Repr

structure Source where
  buffered : List Byte
  events : List SrcEvent
deriving DecidableEq, Repr

/-- Blocking fill (the BufRead contract as exercised by io.rs and its
tests): the next pending chunk, if any, becomes available appended to the
current window, and the whole unconsumed window is returned; with no
pending events the window is returned unchanged, so a call that adds no
new bytes signals EOF. -/
def fill_buf (s : Source) : Except IOError (List Byte) × Source :=
  match s.events with
  | [] => (.ok s.buffered, s)
  | .chunk c :: rest => (.ok (s.buffered ++ c), ⟨s.buffered ++ c, rest⟩)
  | .interrupted :: rest => (.error .interrupted, ⟨s.buffered, rest⟩)
  | .fatal n :: rest => (.error (.other n), ⟨s.buffered, rest⟩)

/-- Suspending fill (the AsyncBufRead contract): return the buffered
window if it is non-empty, otherwise move the next pending chunk in; an
empty result signals EOF. -/
def poll_fill_buf (s : Source) : Except IOError (List Byte) × Source :=
  if s.buffered.isEmpty then
    match s.events with
    | [] => (.ok [], s)
    | .chunk c :: rest => (.ok c, ⟨c, rest⟩)
    | .interrupted :: rest => (.error .interrupted, ⟨s.buffered, rest⟩)
    | .fatal n :: rest => (.error (.other n), ⟨s.buffered, rest⟩)
  else (.ok s.buffered, s)

/-- Consume marks n bytes as permanently removed from the front of the
window. -/
def Source.consume (s : Source) (n : Nat) : Source :=
  ⟨s.buffered.drop n, s.events⟩

/-! ### Blocking scan loop (src/io.rs, read_until_needle) -/

/-- Which terminal branch a scan run ended in. -/
inductive Outcome where
  | matched (range : Nat × Nat)
  | eof
deriving DecidableEq, Repr

/-- Result of one iteration body of the blocking loop: the Rust tuple
(done, used, buffered) plus the updated output buffers and, when the
match branch was taken, the match range. -/
structure IterOut where
  done : Bool
  used : Nat
  buffered : Nat
  range? : Option (Nat × Nat)
  before : List Byte
  matched : List Byte
deriving DecidableEq, Repr

/-- One iteration body of io.rs read_until_needle, translated clause for
clause: given the available view and total_buffered, try the matcher
first, otherwise continue if new bytes arrived, otherwise treat the rest
as final (EOF). An error is the matcher's empty-needle panic. -/
def ioIterBody (needle available : List Byte) (total_buffered : Nat)
    (before matched : List Byte) : Except Unit IterOut :=
  let buffered := available.length - total_buffered
  match findin needle available with
  | .error _ => .error ()
  | .ok (some range) =>
    .ok ⟨true, range.2, available.length - range.2, some range,
      before ++ available.take range.1,
      matched ++ (available.take range.2).drop range.1⟩
  | .ok none =>
    if 0 < buffered then .ok ⟨false, 0, buffered, none, before, matched⟩
    else .ok ⟨true, available.length, 0, none, before ++ available, matched⟩

/-- Final state of a blocking scan run. The consumed field mirrors the
bytes passed to consume during the call, and finalAvailable records the
available view of the terminating iteration (the accumulation buffer). -/
structure RunResult where
  retVal : Nat
  outcome : Outcome
  source : Source
  before : List Byte
  matched : List Byte
  consumed : Nat
  finalAvailable : List Byte
deriving DecidableEq, Repr

/-- The blocking scan loop of io.rs, fuelled: fill (retrying silently on
interrupted, propagating other errors), run the iteration body, consume
used bytes, return on done, otherwise advance total_buffered and loop. -/
def ioLoop (needle : List Byte) (fuel : Nat) (s : Source)
    (before matched : List Byte) (total_buffered consumed : Nat) :
    Option (Except RunError RunResult) :=
  match fuel with
  | 0 => none
  | fuel + 1 =>
    match fill_buf s with
    | (.error .interrupted, s') =>
      ioLoop needle fuel s' before matched total_buffered consumed
    | (.error e, _) => some (.error (.ioErr e))
    | (.ok available, s') =>
      match ioIterBody needle available total_buffered before matched with
      | .error _ => some (.error .emptyNeedlePanic)
      | .ok it =>
        let s2 := s'.consume it.used
        if it.done then
          some (.ok ⟨it.used,
            (match it.range? with | some rg => .matched rg | none => .eof),
            s2, it.before, it.matched, consumed + it.used, available⟩)
        else
          ioLoop needle fuel s2 it.before it.matched
            (total_buffered + it.buffered) (consumed + it.used)

/-- Blocking read_until_needle: run the loop from total_buffered = 0 with
enough fuel for every event plus the final double scan. -/
def read_until_needle (needle : List Byte) (s : Source)
    (before matched : List Byte) : Option (Except RunError RunResult) :=
  ioLoop needle (s.events.length + 2) s before matched 0 0

/-! ### Suspending scan loop (src/futures.rs, read_until_needle_internal) -/

/-- Result of one iteration body of the suspending loop: the Rust tuple
(done, used) plus the grown accumulation buffer, the updated output
buffers and, when the match branch was taken, the match range. -/
structure FutIterOut where
  done : Bool
  used : Nat
  range? : Option (Nat × Nat)
  buf : List Byte
  before : List Byte
  matched : List Byte
deriving DecidableEq, Repr

/-- One iteration body of read_until_needle_internal, translated clause
for clause: extend the accumulation buffer with the available view, then
check EOF (empty view), then run the matcher over the accumulation
buffer. -/
def futIterBody (needle available buf before matched : List Byte) :
    Except Unit FutIterOut :=
  let buf' := buf ++ available
  if available.isEmpty then
    .ok ⟨true, available.length, none, buf', before ++ buf', matched⟩
  else
    match findin needle buf' with
    | .error _ => .error ()
    | .ok (some range) =>
      .ok ⟨true, available.length - (buf'.length - range.2), some range,
        buf', before ++ buf'.take range.1,
        matched ++ (buf'.take range.2).drop range.1⟩
    | .ok none => .ok ⟨false, available.length, none, buf', before, matched⟩

/-- Final state of a suspending scan run. buf is the accumulation buffer
at the end of the run, consumed mirrors the bytes passed to consume, and
finalAvailable records the available view of the terminating iteration. -/
structure FutRunResult where
  retVal : Nat
  outcome : Outcome
  source : Source
  before : List Byte
  matched : List Byte
  buf : List Byte
  consumed : Nat
  finalAvailable : List Byte
deriving DecidableEq, Repr

/-- The suspending scan loop of futures.rs, fuelled. Every fill error,
including interrupted, propagates immediately (the question-mark operator
on poll_fill_buf); otherwise run the iteration body, consume used bytes,
add used to total_bytes_read, and return that total on done. -/
def futLoop (needle : List Byte) (fuel : Nat) (s : Source)
    (buf before matched : List Byte) (total_bytes_read consumed : Nat) :
    Option (Except RunError FutRunResult) :=
  match fuel with
  | 0 => none
  | fuel + 1 =>
    match poll_fill_buf s with
    | (.error e, _) => some (.error (.ioErr e))
    | (.ok available, s') =>
      match futIterBody needle available buf before matched with
      | .error _ => some (.error .emptyNeedlePanic)
      | .ok it =>
        let s2 := s'.consume it.used
        if it.done then
          some (.ok ⟨total_bytes_read + it.used,
            (match it.range? with | some rg => .matched rg | none => .eof),
            s2, it.before, it.matched, it.buf, consumed + it.used, available⟩)
        else
          futLoop needle fuel s2 it.buf it.before it.matched
            (total_bytes_read + it.used) (consumed + it.used)

/-- Suspending read_until_needle: the future starts with an empty
accumulation buffer and a zero total_bytes_read counter. -/
def fut_read_until_needle (needle : List Byte) (s : Source)
    (before matched : List Byte) : Option (Except RunError FutRunResult) :=
  futLoop needle (s.events.length + 2) s [] before matched 0 0

/-! ### Run lemmas for the blocking loop -/

theorem fill_buf_ok_buffered {s s' : Source} {a : List Byte}
    (h : fill_buf s = (.ok a, s')) : s'.buffered = a := by
  cases hev : s.events with
  | nil =>
    rw [fill_buf, hev] at h
    cases h
    rfl
  | cons e rest =>
    cases e with
    | chunk c =>
      rw [fill_buf, hev] at h
      cases h
      rfl
    | interrupted =>
      rw [fill_buf, hev] at h
      cases h
    | fatal n =>
      rw [fill_buf, hev] at h
      cases h

/-- Core induction for the blocking loop: any successful run relates its
result fields to the initial output buffers, splits the final available
view at the match range (match case) or appends it whole (EOF case), and
consumes exactly what it returns. -/
theorem ioLoop_ok {needle : List Byte} {fuel : Nat} {s : Source} {b m : List Byte}
    {tb c : Nat} {r : RunResult}
    (h : ioLoop needle fuel s b m tb c = some (.ok r)) :
    r.consumed = c + r.retVal ∧
    (∀ ms me, r.outcome = .matched (ms, me) →
      findin needle r.finalAvailable = .ok (some (ms, me)) ∧
      r.retVal = me ∧
      r.before = b ++ r.finalAvailable.take ms ∧
      r.matched = m ++ (r.finalAvailable.take me).drop ms ∧
      r.source.buffered = r.finalAvailable.drop me) ∧
    (r.outcome = .eof →
      r.retVal = r.finalAvailable.length ∧
      r.before = b ++ r.finalAvailable ∧
      r.matched = m ∧
      r.source.buffered = []) := by
  induction fuel generalizing s b m tb c with
  | zero => exact absurd h (by rw [ioLoop]; simp)
  | succ fuel ih =>
    rcases hfb : fill_buf s with ⟨res, s'⟩
    rw [ioLoop, hfb] at h
    cases res with
    | error e =>
      cases e with
      | interrupted => exact ih h
      | other n => simp at h
    | ok available =>
      have hsb : s'.buffered = available := fill_buf_ok_buffered hfb
      cases hfi : findin needle available with
      | error u =>
        unfold ioIterBody at h
        simp only [hfi] at h
        simp at h
      | ok o =>
        cases o with
        | some range =>
          unfold ioIterBody at h
          simp only [hfi] at h
          have h' : Except.ok (ε := RunError)
              (⟨range.2,
                Outcome.matched range,
                s'.consume range.2,
                b ++ available.take range.1,
                m ++ (available.take range.2).drop range.1,
                c + range.2, available⟩ : RunResult) = .ok r := Option.some.inj h
          rcases Except.ok.inj h' with rfl
          refine ⟨rfl, ?_, ?_⟩
          · intro ms me hout
            have hrg : range = (ms, me) := by
              cases hout
              rfl
            subst hrg
            refine ⟨hfi, rfl, rfl, rfl, ?_⟩
            simp only [Source.consume, hsb]
          · intro hout
            exact absurd hout (by simp)
        | none =>
          unfold ioIterBody at h
          simp only [hfi] at h
          by_cases hlt : 0 < available.length - tb
          · rw [if_pos hlt] at h
            have h2 : ioLoop needle fuel (s'.consume 0) b m
                (tb + (available.length - tb)) (c + 0) = some (.ok r) := h
            have := ih h2
            simpa using this
          · rw [if_neg hlt] at h
            have h' : Except.ok (ε := RunError)
                (⟨available.length,
                  Outcome.eof,
                  s'.consume available.length,
                  b ++ available, m,
                  c + available.length, available⟩ : RunResult) = .ok r := Option.some.inj h
            rcases Except.ok.inj h' with rfl
            refine ⟨rfl, ?_, ?_⟩
            · intro ms me hout
              exact absurd hout (by simp)
            · intro _
              refine ⟨rfl, rfl, rfl, ?_⟩
              simp only [Source.consume, hsb, List.drop_length]

/-! ### Run lemmas for the suspending loop -/

theorem poll_fill_buf_ok_buffered {s s' : Source} {a : List Byte}
    (h : poll_fill_buf s = (.ok a, s')) : s'.buffered = a := by
  by_cases hbe : s.buffered.isEmpty
  · cases hev : s.events with
    | nil =>
      rw [poll_fill_buf, if_pos hbe, hev] at h
      cases h
      exact List.isEmpty_iff.mp hbe
    | cons e rest =>
      cases e with
      | chunk c =>
        rw [poll_fill_buf, if_pos hbe, hev] at h
        cases h
        rfl
      | interrupted =>
        rw [poll_fill_buf, if_pos hbe, hev] at h
        cases h
      | fatal n =>
        rw [poll_fill_buf, if_pos hbe, hev] at h
        cases h
  · rw [poll_fill_buf, if_neg hbe] at h
    cases h
    rfl

/-- Core induction for the suspending loop: a successful run grows the
accumulation buffer, keeps total_bytes_read equal to the bytes passed to
consume, and in each terminal branch relates the result fields to the
initial state. The invariant is that the accumulation buffer at entry
contains no match yet (or is still empty), which is what makes the match
end land beyond the already-scanned prefix. -/
theorem futLoop_ok {needle : List Byte} {fuel : Nat} {s : Source} {buf b m : List Byte}
    {tbr c : Nat} {r : FutRunResult}
    (hinv : findin needle buf = .ok none ∨ buf = [])
    (h : futLoop needle fuel s buf b m tbr c = some (.ok r)) :
    (∃ t, buf ++ t = r.buf) ∧
    r.retVal + c = r.consumed + tbr ∧ tbr ≤ r.retVal ∧
    (r.outcome = .eof →
      r.before = b ++ r.buf ∧ r.matched = m ∧ r.source.buffered = [] ∧
      r.retVal = tbr + (r.buf.length - buf.length) ∧ buf.length ≤ r.buf.length) ∧
    (∀ ms me, r.outcome = .matched (ms, me) →
      findin needle r.buf = .ok (some (ms, me)) ∧
      r.before = b ++ r.buf.take ms ∧
      r.matched = m ++ (r.buf.take me).drop ms ∧
      buf.length ≤ me ∧ me ≤ r.buf.length ∧
      r.retVal = tbr + (me - buf.length) ∧
      r.source.buffered = r.buf.drop me ∧
      r.buf.length - me ≤ r.finalAvailable.length ∧
      r.buf.length - r.finalAvailable.length ≤ me) := by
  induction fuel generalizing s buf b m tbr c with
  | zero => exact absurd h (by rw [futLoop]; simp)
  | succ fuel ih =>
    rcases hpf : poll_fill_buf s with ⟨res, s'⟩
    rw [futLoop, hpf] at h
    cases res with
    | error e => simp at h
    | ok available =>
      have hsb : s'.buffered = available := poll_fill_buf_ok_buffered hpf
      by_cases hae : available.isEmpty
      · have hav : available = [] := List.isEmpty_iff.mp hae
        subst hav
        unfold futIterBody at h
        simp only [List.isEmpty_nil, if_pos] at h
        have h' : Except.ok (ε := RunError)
            (⟨tbr + List.length ([] : List Byte),
              Outcome.eof,
              s'.consume (List.length ([] : List Byte)),
              b ++ (buf ++ []), m, buf ++ [],
              c + List.length ([] : List Byte), []⟩ : FutRunResult) = .ok r :=
          Option.some.inj h
        rcases Except.ok.inj h' with rfl
        refine ⟨⟨[], rfl⟩, ?_, ?_, ?_, ?_⟩
        · simp only [List.length_nil]
          omega
        · simp only [List.length_nil]
          omega
        · intro _
          refine ⟨rfl, rfl, ?_, ?_, ?_⟩
          · simp [Source.consume, hsb]
          · simp
          · simp
        · intro ms me hout
          exact absurd hout (by simp)
      · have hae2 : available.isEmpty = false := by
          cases hb : available.isEmpty with
          | false => rfl
          | true => exact absurd hb hae
        unfold futIterBody at h
        simp only [hae2, Bool.false_eq_true, if_false] at h
        cases hfi : findin needle (buf ++ available) with
        | error u =>
          simp only [hfi] at h
          simp at h
        | ok o =>
          cases o with
          | some range =>
            obtain ⟨rs, re⟩ := range
            simp only [hfi] at h
            have h' : Except.ok (ε := RunError)
                (⟨tbr + (available.length - ((buf ++ available).length - re)),
                  Outcome.matched (rs, re),
                  s'.consume (available.length - ((buf ++ available).length - re)),
                  b ++ (buf ++ available).take rs,
                  m ++ ((buf ++ available).take re).drop rs,
                  buf ++ available,
                  c + (available.length - ((buf ++ available).length - re)),
                  available⟩ : FutRunResult) = .ok r := Option.some.inj h
            rcases Except.ok.inj h' with rfl
            have hn : needle ≠ [] := findin_needle_ne_nil hfi
            have hnone : findin needle buf = .ok none := by
              rcases hinv with hi | hi
              · exact hi
              · rw [hi]
                exact findin_nil hn
            have hlt : buf.length < re := findin_append_none_lt hnone hfi
            have hbnd := findin_some_bounds hfi
            have hlen : (buf ++ available).length = buf.length + available.length :=
              List.length_append buf available
            refine ⟨⟨available, rfl⟩, ?_, ?_, ?_, ?_⟩
            · simp only [List.length_append]
              omega
            · simp only [List.length_append]
              omega
            · intro hout
              exact absurd hout (by simp)
            · intro ms me hout
              have hms : rs = ms := by
                cases hout
                rfl
              have hme : re = me := by
                cases hout
                rfl
              subst hms
              subst hme
              refine ⟨hfi, rfl, rfl, by omega,
                by simp only [List.length_append]; omega,
                by simp only [List.length_append]; omega, ?_, ?_, ?_⟩
              · simp only [Source.consume, hsb]
                rw [List.drop_append_eq_append_drop,
                  List.drop_eq_nil_of_le (by omega : buf.length ≤ re),
                  List.nil_append]
                congr 1
                simp only [List.length_append]
                omega
              · simp only [List.length_append]
                omega
              · simp only [List.length_append]
                omega
          | none =>
            simp only [hfi] at h
            have h2 : futLoop needle fuel (s'.consume available.length)
                (buf ++ available) b m (tbr + available.length)
                (c + available.length) = some (.ok r) := h
            have hres := ih (Or.inl hfi) h2
            have hlen : (buf ++ available).length = buf.length + available.length :=
              List.length_append buf available
            rcases hres with ⟨⟨t, hbt⟩, hcnt, htle, heof, hmat⟩
            refine ⟨⟨available ++ t, by rw [← List.append_assoc]; exact hbt⟩,
              by omega, by omega, ?_, ?_⟩
            · intro hout
              rcases heof hout with ⟨e1, e2, e3, e4, e5⟩
              refine ⟨e1, e2, e3, by omega, by omega⟩
            · intro ms me hout
              rcases hmat ms me hout with ⟨f1, f2, f3, f4, f5, f6, f7, f8, f9⟩
              exact ⟨f1, f2, f3, by omega, f5, by omega, f7, f8, f9⟩

/-! ### Content accounting over well-behaved sources -/

/-- A well-behaved event queue: only non-empty data chunks. Per the source
contract an empty fill result signals end of stream, so a conforming
source never reports an empty chunk (or an error) in the middle. -/
def cleanEvents : List SrcEvent → Bool
  | [] => true
  | .chunk c :: rest => !c.isEmpty && cleanEvents rest
  | .interrupted :: _ => false
  | .fatal _ :: _ => false

/-- Bytes contributed by one source event. -/
def eventLen : SrcEvent → Nat
  | .chunk c => c.length
  | .interrupted => 0
  | .fatal _ => 0

/-- Total number of bytes the source still holds: the unconsumed window
plus everything yet to arrive. -/
def totalContent (s : Source) : Nat :=
  s.buffered.length + (s.events.map eventLen).sum

theorem cleanEvents_chunk {ch : List Byte} {rest : List SrcEvent}
    (h : cleanEvents (.chunk ch :: rest) = true) :
    ch ≠ [] ∧ cleanEvents rest = true := by
  simp only [cleanEvents, Bool.and_eq_true, Bool.not_eq_true'] at h
  refine ⟨?_, h.2⟩
  intro hc
  have h1 := h.1
  rw [hc] at h1
  simp at h1

/-- Content accounting for the blocking loop over a well-behaved source:
the run consumes exactly its return value out of the source's remaining
content, EOF means the source was fully drained, and a match consumes at
least the needle's length. -/
theorem ioLoop_content {needle : List Byte} {fuel : Nat} {s : Source} {b m : List Byte}
    {tb c : Nat} {r : RunResult}
    (hclean : cleanEvents s.events = true) (htb : tb ≤ s.buffered.length)
    (h : ioLoop needle fuel s b m tb c = some (.ok r)) :
    totalContent s = totalContent r.source + r.retVal ∧
    cleanEvents r.source.events = true ∧
    (r.outcome = .eof → totalContent r.source = 0) ∧
    (∀ rg, r.outcome = .matched rg → needle.length ≤ r.retVal) := by
  induction fuel generalizing s b m tb c with
  | zero => exact absurd h (by rw [ioLoop]; simp)
  | succ fuel ih =>
    cases hev : s.events with
    | nil =>
      have hfb : fill_buf s = (.ok s.buffered, s) := by rw [fill_buf, hev]
      rw [ioLoop, hfb] at h
      cases hfi : findin needle s.buffered with
      | error u =>
        unfold ioIterBody at h
        simp only [hfi] at h
        simp at h
      | ok o =>
        cases o with
        | some range =>
          unfold ioIterBody at h
          simp only [hfi] at h
          have h' : Except.ok (ε := RunError)
              (⟨range.2, Outcome.matched range, s.consume range.2,
                b ++ s.buffered.take range.1,
                m ++ (s.buffered.take range.2).drop range.1,
                c + range.2, s.buffered⟩ : RunResult) = .ok r := Option.some.inj h
          rcases Except.ok.inj h' with rfl
          have hbnd := findin_some_bounds hfi
          refine ⟨?_, ?_, ?_, ?_⟩
          · show totalContent s = totalContent (s.consume range.2) + range.2
            simp only [totalContent, Source.consume, hev, List.length_drop,
              List.map_nil, List.sum_nil]
            omega
          · show cleanEvents (s.consume range.2).events = true
            show cleanEvents s.events = true
            exact hclean
          · intro hout
            exact absurd hout (by simp)
          · intro rg hout
            show needle.length ≤ range.2
            omega
        | none =>
          unfold ioIterBody at h
          simp only [hfi] at h
          by_cases hlt : 0 < s.buffered.length - tb
          · rw [if_pos hlt] at h
            have h2 : ioLoop needle fuel (s.consume 0) b m
                (tb + (s.buffered.length - tb)) (c + 0) = some (.ok r) := h
            have hclean2 : cleanEvents (s.consume 0).events = true := hclean
            have htb2 : tb + (s.buffered.length - tb) ≤ (s.consume 0).buffered.length := by
              simp only [Source.consume, List.drop_zero]
              omega
            have hres := ih hclean2 htb2 h2
            have hcc : totalContent (s.consume 0) = totalContent s := by
              simp [totalContent, Source.consume]
            rw [hcc] at hres
            exact hres
          · rw [if_neg hlt] at h
            have h' : Except.ok (ε := RunError)
                (⟨s.buffered.length, Outcome.eof, s.consume s.buffered.length,
                  b ++ s.buffered, m,
                  c + s.buffered.length, s.buffered⟩ : RunResult) = .ok r :=
              Option.some.inj h
            rcases Except.ok.inj h' with rfl
            refine ⟨?_, ?_, ?_, ?_⟩
            · show totalContent s = totalContent (s.consume s.buffered.length) + s.buffered.length
              simp only [totalContent, Source.consume, hev, List.length_drop,
                List.map_nil, List.sum_nil]
              omega
            · show cleanEvents s.events = true
              exact hclean
            · intro _
              show totalContent (s.consume s.buffered.length) = 0
              simp only [totalContent, Source.consume, hev, List.length_drop,
                List.map_nil, List.sum_nil]
              omega
            · intro rg hout
              exact absurd hout (by simp)
    | cons e rest =>
      cases e with
      | chunk ch =>
        have hclean' : cleanEvents (SrcEvent.chunk ch :: rest) = true := by
          rwa [hev] at hclean
        rcases cleanEvents_chunk hclean' with ⟨hch, hcrest⟩
        have hchpos : 0 < ch.length := List.length_pos.mpr hch
        have hfb : fill_buf s = (.ok (s.buffered ++ ch), ⟨s.buffered ++ ch, rest⟩) := by
          rw [fill_buf, hev]
        rw [ioLoop, hfb] at h
        cases hfi : findin needle (s.buffered ++ ch) with
        | error u =>
          unfold ioIterBody at h
          simp only [hfi] at h
          simp at h
        | ok o =>
          cases o with
          | some range =>
            unfold ioIterBody at h
            simp only [hfi] at h
            have h' : Except.ok (ε := RunError)
                (⟨range.2, Outcome.matched range,
                  Source.consume ⟨s.buffered ++ ch, rest⟩ range.2,
                  b ++ (s.buffered ++ ch).take range.1,
                  m ++ ((s.buffered ++ ch).take range.2).drop range.1,
                  c + range.2, s.buffered ++ ch⟩ : RunResult) = .ok r :=
              Option.some.inj h
            rcases Except.ok.inj h' with rfl
            have hbnd := findin_some_bounds hfi
            simp only [List.length_append] at hbnd
            refine ⟨?_, ?_, ?_, ?_⟩
            · show totalContent s =
                totalContent (Source.consume ⟨s.buffered ++ ch, rest⟩ range.2) + range.2
              simp only [totalContent, Source.consume, hev, List.length_drop,
                List.length_append, List.map_cons, List.sum_cons, eventLen]
              omega
            · show cleanEvents rest = true
              exact hcrest
            · intro hout
              exact absurd hout (by simp)
            · intro rg hout
              show needle.length ≤ range.2
              omega
          | none =>
            unfold ioIterBody at h
            simp only [hfi] at h
            by_cases hlt : 0 < (s.buffered ++ ch).length - tb
            · rw [if_pos hlt] at h
              have h2 : ioLoop needle fuel
                  (Source.consume ⟨s.buffered ++ ch, rest⟩ 0) b m
                  (tb + ((s.buffered ++ ch).length - tb)) (c + 0) = some (.ok r) := h
              have hclean2 : cleanEvents (Source.consume ⟨s.buffered ++ ch, rest⟩ 0).events = true :=
                hcrest
              have htb2 : tb + ((s.buffered ++ ch).length - tb) ≤
                  (Source.consume ⟨s.buffered ++ ch, rest⟩ 0).buffered.length := by
                simp only [Source.consume, List.drop_zero]
                omega
              have hres := ih hclean2 htb2 h2
              have hcc : totalContent (Source.consume ⟨s.buffered ++ ch, rest⟩ 0) =
                  totalContent s := by
                simp only [totalContent, Source.consume, List.drop_zero, hev,
                  List.length_append, List.map_cons, List.sum_cons, eventLen]
                omega
              rw [hcc] at hres
              exact hres
            · exfalso
              simp only [List.length_append] at hlt
              omega
      | interrupted =>
        exfalso
        rw [hev] at hclean
        simp [cleanEvents] at hclean
      | fatal n =>
        exfalso
        rw [hev] at hclean
        simp [cleanEvents] at hclean

/-- Content accounting for the suspending loop over a well-behaved
source: across the whole run the total_bytes_read counter grows by
exactly the content drained from the source, and EOF means the source was
fully drained. -/
theorem futLoop_content {needle : List Byte} {fuel : Nat} {s : Source} {buf b m : List Byte}
    {tbr c : Nat} {r : FutRunResult}
    (hclean : cleanEvents s.events = true)
    (h : futLoop needle fuel s buf b m tbr c = some (.ok r)) :
    totalContent s + tbr = totalContent r.source + r.retVal ∧
    cleanEvents r.source.events = true ∧
    (r.outcome = .eof → totalContent r.source = 0) := by
  induction fuel generalizing s buf b m tbr c with
  | zero => exact absurd h (by rw [futLoop]; simp)
  | succ fuel ih =>
    by_cases hbe : s.buffered.isEmpty
    · have hbnil : s.buffered = [] := List.isEmpty_iff.mp hbe
      cases hev : s.events with
      | nil =>
        have hpf : poll_fill_buf s = (.ok [], s) := by rw [poll_fill_buf, if_pos hbe, hev]
        rw [futLoop, hpf] at h
        unfold futIterBody at h
        simp only [List.isEmpty_nil, if_pos] at h
        have h' : Except.ok (ε := RunError)
            (⟨tbr + List.length ([] : List Byte), Outcome.eof,
              s.consume (List.length ([] : List Byte)),
              b ++ (buf ++ []), m, buf ++ [],
              c + List.length ([] : List Byte), []⟩ : FutRunResult) = .ok r :=
          Option.some.inj h
        rcases Except.ok.inj h' with rfl
        refine ⟨?_, ?_, ?_⟩
        · show totalContent s + tbr = totalContent (s.consume 0) + (tbr + 0)
          simp [totalContent, Source.consume]
        · show cleanEvents s.events = true
          exact hclean
        · intro _
          show totalContent (s.consume 0) = 0
          simp [totalContent, Source.consume, hbnil, hev]
      | cons e rest =>
        cases e with
        | chunk ch =>
          have hclean' : cleanEvents (SrcEvent.chunk ch :: rest) = true := by
            rwa [hev] at hclean
          rcases cleanEvents_chunk hclean' with ⟨hch, hcrest⟩
          have hchpos : 0 < ch.length := List.length_pos.mpr hch
          have hpf : poll_fill_buf s = (.ok ch, ⟨ch, rest⟩) := by
            rw [poll_fill_buf, if_pos hbe, hev]
          rw [futLoop, hpf] at h
          have hche : ch.isEmpty = false := by
            cases hbq : ch.isEmpty with
            | false => rfl
            | true => exact absurd (List.isEmpty_iff.mp hbq) hch
          unfold futIterBody at h
          simp only [hche, Bool.false_eq_true, if_false] at h
          cases hfi : findin needle (buf ++ ch) with
          | error u =>
            simp only [hfi] at h
            simp at h
          | ok o =>
            cases o with
            | some range =>
              obtain ⟨rs, re⟩ := range
              simp only [hfi] at h
              have h' : Except.ok (ε := RunError)
                  (⟨tbr + (ch.length - ((buf ++ ch).length - re)), Outcome.matched (rs, re),
                    Source.consume ⟨ch, rest⟩ (ch.length - ((buf ++ ch).length - re)),
                    b ++ (buf ++ ch).take rs,
                    m ++ ((buf ++ ch).take re).drop rs,
                    buf ++ ch,
                    c + (ch.length - ((buf ++ ch).length - re)),
                    ch⟩ : FutRunResult) = .ok r := Option.some.inj h
              rcases Except.ok.inj h' with rfl
              refine ⟨?_, ?_, ?_⟩
              · show totalContent s + tbr =
                  totalContent (Source.consume ⟨ch, rest⟩
                    (ch.length - ((buf ++ ch).length - re))) +
                  (tbr + (ch.length - ((buf ++ ch).length - re)))
                simp only [totalContent, Source.consume, hbnil, hev, List.length_drop,
                  List.length_append, List.length_nil, List.map_cons, List.sum_cons, eventLen]
                omega
              · show cleanEvents rest = true
                exact hcrest
              · intro hout
                exact absurd hout (by simp)
            | none =>
              simp only [hfi] at h
              have h2 : futLoop needle fuel (Source.consume ⟨ch, rest⟩ ch.length)
                  (buf ++ ch) b m (tbr + ch.length) (c + ch.length) = some (.ok r) := h
              rcases ih hcrest h2 with ⟨h1, hcl, heo⟩
              have hcc : totalContent (Source.consume ⟨ch, rest⟩ ch.length) + ch.length =
                  totalContent s := by
                simp only [totalContent, Source.consume, hbnil, hev, List.length_drop,
                  List.length_nil, List.map_cons, List.sum_cons, eventLen]
                omega
              exact ⟨by omega, hcl, heo⟩
        | interrupted =>
          exfalso
          rw [hev] at hclean
          simp [cleanEvents] at hclean
        | fatal n =>
          exfalso
          rw [hev] at hclean
          simp [cleanEvents] at hclean
    · have hpf : poll_fill_buf s = (.ok s.buffered, s) := by rw [poll_fill_buf, if_neg hbe]
      rw [futLoop, hpf] at h
      have hbe2 : s.buffered.isEmpty = false := by
        cases hbq : s.buffered.isEmpty with
        | false => rfl
        | true => exact absurd hbq hbe
      unfold futIterBody at h
      simp only [hbe2, Bool.false_eq_true, if_false] at h
      cases hfi : findin needle (buf ++ s.buffered) with
      | error u =>
        simp only [hfi] at h
        simp at h
      | ok o =>
        cases o with
        | some range =>
          obtain ⟨rs, re⟩ := range
          simp only [hfi] at h
          have h' : Except.ok (ε := RunError)
              (⟨tbr + (s.buffered.length - ((buf ++ s.buffered).length - re)),
                Outcome.matched (rs, re),
                s.consume (s.buffered.length - ((buf ++ s.buffered).length - re)),
                b ++ (buf ++ s.buffered).take rs,
                m ++ ((buf ++ s.buffered).take re).drop rs,
                buf ++ s.buffered,
                c + (s.buffered.length - ((buf ++ s.buffered).length - re)),
                s.buffered⟩ : FutRunResult) = .ok r := Option.some.inj h
          rcases Except.ok.inj h' with rfl
          refine ⟨?_, ?_, ?_⟩
          · show totalContent s + tbr =
              totalContent (s.consume (s.buffered.length - ((buf ++ s.buffered).length - re))) +
              (tbr + (s.buffered.length - ((buf ++ s.buffered).length - re)))
            simp only [totalContent, Source.consume, List.length_drop, List.length_append]
            omega
          · show cleanEvents s.events = true
            exact hclean
          · intro hout
            exact absurd hout (by simp)
        | none =>
          simp only [hfi] at h
          have h2 : futLoop needle fuel (s.consume s.buffered.length)
              (buf ++ s.buffered) b m (tbr + s.buffered.length)
              (c + s.buffered.length) = some (.ok r) := h
          rcases ih (s := s.consume s.buffered.length) hclean h2 with ⟨h1, hcl, heo⟩
          have hcc : totalContent (s.consume s.buffered.length) + s.buffered.length =
              totalContent s := by
            simp only [totalContent, Source.consume, List.length_drop]
            omega
          exact ⟨by omega, hcl, heo⟩

theorem findin_not_error {needle haystack : List Byte} (hn : needle ≠ []) {u : Unit} :
    findin needle haystack ≠ .error u := by
  rw [findin, if_neg (fun h0 => hn (List.length_eq_zero.mp h0))]
  exact fun hc => Except.noConfusion hc

/-- With a non-empty needle and a well-behaved source, the blocking loop
returns successfully within its fuel budget: one iteration per pending
event, plus one to scan bytes that were already buffered, plus a final
iteration that observes an unchanged window and stops. -/
theorem ioLoop_total {needle : List Byte} (hn : needle ≠ []) :
    ∀ (fuel : Nat) (s : Source) (b m : List Byte) (tb c : Nat),
      cleanEvents s.events = true → tb ≤ s.buffered.length →
      (s.events.length + 2 ≤ fuel ∨
        (s.buffered.length ≤ tb ∧ s.events.length + 1 ≤ fuel)) →
      ∃ res, ioLoop needle fuel s b m tb c = some (.ok res) := by
  intro fuel
  induction fuel with
  | zero =>
    intro s b m tb c _ _ hf
    rcases hf with hf | ⟨_, hf⟩ <;> omega
  | succ fuel ih =>
    intro s b m tb c hclean htb hf
    cases hev : s.events with
    | nil =>
      have hfb : fill_buf s = (.ok s.buffered, s) := by rw [fill_buf, hev]
      cases hfi : findin needle s.buffered with
      | error u => exact absurd hfi (findin_not_error hn)
      | ok o =>
        cases o with
        | some range =>
          refine ⟨⟨range.2, Outcome.matched range, s.consume range.2,
            b ++ s.buffered.take range.1,
            m ++ (s.buffered.take range.2).drop range.1,
            c + range.2, s.buffered⟩, ?_⟩
          rw [ioLoop, hfb]
          unfold ioIterBody
          simp only [hfi]
          rfl
        | none =>
          by_cases hlt : 0 < s.buffered.length - tb
          · have hstep : ioLoop needle (fuel + 1) s b m tb c =
                ioLoop needle fuel (s.consume 0) b m
                  (tb + (s.buffered.length - tb)) (c + 0) := by
              rw [ioLoop, hfb]
              unfold ioIterBody
              simp only [hfi, if_pos hlt]
              rfl
            rw [hstep]
            apply ih
            · exact hclean
            · simp only [Source.consume, List.drop_zero]
              omega
            · right
              refine ⟨?_, ?_⟩
              · simp only [Source.consume, List.drop_zero]
                omega
              · simp only [Source.consume, hev]
                rcases hf with hf | ⟨_, hf⟩
                · simp only [hev] at hf
                  omega
                · simp only [hev] at hf
                  omega
          · refine ⟨⟨s.buffered.length, Outcome.eof, s.consume s.buffered.length,
              b ++ s.buffered, m, c + s.buffered.length, s.buffered⟩, ?_⟩
            rw [ioLoop, hfb]
            unfold ioIterBody
            simp only [hfi, if_neg hlt]
            rfl
    | cons e rest =>
      cases e with
      | chunk ch =>
        have hclean' : cleanEvents (SrcEvent.chunk ch :: rest) = true := by
          rwa [hev] at hclean
        rcases cleanEvents_chunk hclean' with ⟨hch, hcrest⟩
        have hchpos : 0 < ch.length := List.length_pos.mpr hch
        have hfb : fill_buf s = (.ok (s.buffered ++ ch), ⟨s.buffered ++ ch, rest⟩) := by
          rw [fill_buf, hev]
        cases hfi : findin needle (s.buffered ++ ch) with
        | error u => exact absurd hfi (findin_not_error hn)
        | ok o =>
          cases o with
          | some range =>
            refine ⟨⟨range.2, Outcome.matched range,
              Source.consume ⟨s.buffered ++ ch, rest⟩ range.2,
              b ++ (s.buffered ++ ch).take range.1,
              m ++ ((s.buffered ++ ch).take range.2).drop range.1,
              c + range.2, s.buffered ++ ch⟩, ?_⟩
            rw [ioLoop, hfb]
            unfold ioIterBody
            simp only [hfi]
            rfl
          | none =>
            have hlt : 0 < (s.buffered ++ ch).length - tb := by
              simp only [List.length_append]
              omega
            have hstep : ioLoop needle (fuel + 1) s b m tb c =
                ioLoop needle fuel (Source.consume ⟨s.buffered ++ ch, rest⟩ 0) b m
                  (tb + ((s.buffered ++ ch).length - tb)) (c + 0) := by
              rw [ioLoop, hfb]
              unfold ioIterBody
              simp only [hfi, if_pos hlt]
              rfl
            rw [hstep]
            apply ih
            · exact hcrest
            · simp only [Source.consume, List.drop_zero]
              omega
            · right
              refine ⟨?_, ?_⟩
              · simp only [Source.consume, List.drop_zero]
                omega
              · simp only [Source.consume]
                rcases hf with hf | ⟨_, hf⟩
                · simp only [hev, List.length_cons] at hf
                  omega
                · simp only [hev, List.length_cons] at hf
                  omega
      | interrupted =>
        exfalso
        rw [hev] at hclean
        simp [cleanEvents] at hclean
      | fatal n =>
        exfalso
        rw [hev] at hclean
        simp [cleanEvents] at hclean

/-- With a non-empty needle and a well-behaved source, the suspending
loop returns successfully within its fuel budget. -/
theorem futLoop_total {needle : List Byte} (hn : needle ≠ []) :
    ∀ (fuel : Nat) (s : Source) (buf b m : List Byte) (tbr c : Nat),
      cleanEvents s.events = true →
      (s.events.length + 2 ≤ fuel ∨
        (s.buffered.isEmpty = true ∧ s.events.length + 1 ≤ fuel)) →
      ∃ res, futLoop needle fuel s buf b m tbr c = some (.ok res) := by
  intro fuel
  induction fuel with
  | zero =>
    intro s buf b m tbr c _ hf
    rcases hf with hf | ⟨_, hf⟩ <;> omega
  | succ fuel ih =>
    intro s buf b m tbr c hclean hf
    by_cases hbe : s.buffered.isEmpty
    · cases hev : s.events with
      | nil =>
        have hpf : poll_fill_buf s = (.ok [], s) := by rw [poll_fill_buf, if_pos hbe, hev]
        refine ⟨⟨tbr + List.length ([] : List Byte), Outcome.eof,
          s.consume (List.length ([] : List Byte)),
          b ++ (buf ++ []), m, buf ++ [],
          c + List.length ([] : List Byte), []⟩, ?_⟩
        rw [futLoop, hpf]
        rfl
      | cons e rest =>
        cases e with
        | chunk ch =>
          have hclean' : cleanEvents (SrcEvent.chunk ch :: rest) = true := by
            rwa [hev] at hclean
          rcases cleanEvents_chunk hclean' with ⟨hch, hcrest⟩
          have hpf : poll_fill_buf s = (.ok ch, ⟨ch, rest⟩) := by
            rw [poll_fill_buf, if_pos hbe, hev]
          have hche : ch.isEmpty = false := by
            cases hbq : ch.isEmpty with
            | false => rfl
            | true => exact absurd (List.isEmpty_iff.mp hbq) hch
          cases hfi : findin needle (buf ++ ch) with
          | error u => exact absurd hfi (findin_not_error hn)
          | ok o =>
            cases o with
            | some range =>
              refine ⟨⟨tbr + (ch.length - ((buf ++ ch).length - range.2)),
                Outcome.matched range,
                Source.consume ⟨ch, rest⟩ (ch.length - ((buf ++ ch).length - range.2)),
                b ++ (buf ++ ch).take range.1,
                m ++ ((buf ++ ch).take range.2).drop range.1,
                buf ++ ch,
                c + (ch.length - ((buf ++ ch).length - range.2)), ch⟩, ?_⟩
              rw [futLoop, hpf]
              unfold futIterBody
              simp only [hche, Bool.false_eq_true, if_false, hfi]
              rfl
            | none =>
              have hstep : futLoop needle (fuel + 1) s buf b m tbr c =
                  futLoop needle fuel (Source.consume ⟨ch, rest⟩ ch.length)
                    (buf ++ ch) b m (tbr + ch.length) (c + ch.length) := by
                rw [futLoop, hpf]
                unfold futIterBody
                simp only [hche, Bool.false_eq_true, if_false, hfi]
              rw [hstep]
              apply ih
              · exact hcrest
              · right
                refine ⟨?_, ?_⟩
                · simp only [Source.consume, List.drop_length]
                  rfl
                · simp only [Source.consume]
                  rcases hf with hf | ⟨_, hf⟩
                  · simp only [hev, List.length_cons] at hf
                    omega
                  · simp only [hev, List.length_cons] at hf
                    omega
        | interrupted =>
          exfalso
          rw [hev] at hclean
          simp [cleanEvents] at hclean
        | fatal n =>
          exfalso
          rw [hev] at hclean
          simp [cleanEvents] at hclean
    · have hpf : poll_fill_buf s = (.ok s.buffered, s) := by rw [poll_fill_buf, if_neg hbe]
      have hbe2 : s.buffered.isEmpty = false := by
        cases hbq : s.buffered.isEmpty with
        | false => rfl
        | true => exact absurd hbq hbe
      cases hfi : findin needle (buf ++ s.buffered) with
      | error u => exact absurd hfi (findin_not_error hn)
      | ok o =>
        cases o with
        | some range =>
          refine ⟨⟨tbr + (s.buffered.length - ((buf ++ s.buffered).length - range.2)),
            Outcome.matched range,
            s.consume (s.buffered.length - ((buf ++ s.buffered).length - range.2)),
            b ++ (buf ++ s.buffered).take range.1,
            m ++ ((buf ++ s.buffered).take range.2).drop range.1,
            buf ++ s.buffered,
            c + (s.buffered.length - ((buf ++ s.buffered).length - range.2)),
            s.buffered⟩, ?_⟩
          rw [futLoop, hpf]
          unfold futIterBody
          simp only [hbe2, Bool.false_eq_true, if_false, hfi]
          rfl
        | none =>
          have hstep : futLoop needle (fuel + 1) s buf b m tbr c =
              futLoop needle fuel (s.consume s.buffered.length)
                (buf ++ s.buffered) b m (tbr + s.buffered.length)
                (c + s.buffered.length) := by
            rw [futLoop, hpf]
            unfold futIterBody
            simp only [hbe2, Bool.false_eq_true, if_false, hfi]
          rw [hstep]
          apply ih
          · exact hclean
          · right
            refine ⟨?_, ?_⟩
            · simp only [Source.consume, List.drop_length]
              rfl
            · simp only [Source.consume]
              rcases hf with hf | ⟨hcontra, _⟩
              · omega
              · rw [hcontra] at hbe2
                exact absurd hbe2 (by simp)

/-! ### Repeated calls until EOF -/

/-- Repeated blocking calls on the same source (fresh output buffers each
time), summing the returned byte counts, stopping at the first call that
ends in EOF. -/
def ioSumUntilEof (needle : List Byte) : Nat → Source → Option Nat
  | 0, _ => none
  | calls + 1, s =>
    match read_until_needle needle s [] [] with
    | some (.ok r) =>
      match r.outcome with
      | .eof => some r.retVal
      | .matched _ => (ioSumUntilEof needle calls r.source).map (fun n => r.retVal + n)
    | _ => none

/-- Repeated suspending calls on the same source, summing the returned
byte counts, stopping at the first call that ends in EOF. -/
def futSumUntilEof (needle : List Byte) : Nat → Source → Option Nat
  | 0, _ => none
  | calls + 1, s =>
    match fut_read_until_needle needle s [] [] with
    | some (.ok r) =>
      match r.outcome with
      | .eof => some r.retVal
      | .matched _ => (futSumUntilEof needle calls r.source).map (fun n => r.retVal + n)
    | _ => none

theorem ioSumUntilEof_eq {needle : List Byte} (hn : needle ≠ []) :
    ∀ (N : Nat) (s : Source) (calls : Nat),
      totalContent s ≤ N → cleanEvents s.events = true →
      totalContent s + 1 ≤ calls →
      ioSumUntilEof needle calls s = some (totalContent s) := by
  intro N
  induction N with
  | zero =>
    intro s calls h0 hclean hcalls
    cases calls with
    | zero => omega
    | succ calls =>
      rcases ioLoop_total hn (s.events.length + 2) s [] [] 0 0 hclean
        (Nat.zero_le _) (Or.inl (le_refl _)) with ⟨r0, hr⟩
      have hrun : read_until_needle needle s [] [] = some (.ok r0) := hr
      rcases ioLoop_content hclean (Nat.zero_le _) hr with ⟨hc1, hc2, hc3, hc4⟩
      cases hout : r0.outcome with
      | matched rg =>
        have hprog := hc4 rg hout
        have hnp : 0 < needle.length := List.length_pos.mpr hn
        omega
      | eof =>
        have hz : totalContent r0.source = 0 := hc3 hout
        have hred : ioSumUntilEof needle (calls + 1) s = some r0.retVal := by
          rw [ioSumUntilEof]
          simp only [hrun, hout]
        rw [hred]
        congr 1
        omega
  | succ N ih =>
    intro s calls h0 hclean hcalls
    cases calls with
    | zero => omega
    | succ calls =>
      rcases ioLoop_total hn (s.events.length + 2) s [] [] 0 0 hclean
        (Nat.zero_le _) (Or.inl (le_refl _)) with ⟨r0, hr⟩
      have hrun : read_until_needle needle s [] [] = some (.ok r0) := hr
      rcases ioLoop_content hclean (Nat.zero_le _) hr with ⟨hc1, hc2, hc3, hc4⟩
      cases hout : r0.outcome with
      | eof =>
        have hz : totalContent r0.source = 0 := hc3 hout
        have hred : ioSumUntilEof needle (calls + 1) s = some r0.retVal := by
          rw [ioSumUntilEof]
          simp only [hrun, hout]
        rw [hred]
        congr 1
        omega
      | matched rg =>
        have hprog := hc4 rg hout
        have hnp : 0 < needle.length := List.length_pos.mpr hn
        have hred : ioSumUntilEof needle (calls + 1) s =
            (ioSumUntilEof needle calls r0.source).map (fun n => r0.retVal + n) := by
          rw [ioSumUntilEof]
          simp only [hrun, hout]
        rw [hred]
        have hrec : ioSumUntilEof needle calls r0.source = some (totalContent r0.source) := by
          apply ih
          · omega
          · exact hc2
          · omega
        rw [hrec]
        show some (r0.retVal + totalContent r0.source) = some (totalContent s)
        congr 1
        omega

theorem futSumUntilEof_eq {needle : List Byte} (hn : needle ≠ []) :
    ∀ (N : Nat) (s : Source) (calls : Nat),
      totalContent s ≤ N → cleanEvents s.events = true →
      totalContent s + 1 ≤ calls →
      futSumUntilEof needle calls s = some (totalContent s) := by
  intro N
  induction N with
  | zero =>
    intro s calls h0 hclean hcalls
    cases calls with
    | zero => omega
    | succ calls =>
      rcases futLoop_total hn (s.events.length + 2) s [] [] [] 0 0 hclean
        (Or.inl (le_refl _)) with ⟨r0, hr⟩
      have hrun : fut_read_until_needle needle s [] [] = some (.ok r0) := hr
      rcases futLoop_content hclean hr with ⟨hc1, hc2, hc3⟩
      cases hout : r0.outcome with
      | matched rg =>
        obtain ⟨ms, me⟩ := rg
        rcases (futLoop_ok (Or.inr rfl) hr).2.2.2.2 ms me hout with
          ⟨hf1, _, _, _, _, hf6, _, _, _⟩
        rcases findin_some_bounds hf1 with ⟨_, _, hsum⟩
        have hnp : 0 < needle.length := List.length_pos.mpr hn
        simp only [List.length_nil] at hf6
        omega
      | eof =>
        have hz : totalContent r0.source = 0 := hc3 hout
        have hred : futSumUntilEof needle (calls + 1) s = some r0.retVal := by
          rw [futSumUntilEof]
          simp only [hrun, hout]
        rw [hred]
        congr 1
        omega
  | succ N ih =>
    intro s calls h0 hclean hcalls
    cases calls with
    | zero => omega
    | succ calls =>
      rcases futLoop_total hn (s.events.length + 2) s [] [] [] 0 0 hclean
        (Or.inl (le_refl _)) with ⟨r0, hr⟩
      have hrun : fut_read_until_needle needle s [] [] = some (.ok r0) := hr
      rcases futLoop_content hclean hr with ⟨hc1, hc2, hc3⟩
      cases hout : r0.outcome with
      | eof =>
        have hz : totalContent r0.source = 0 := hc3 hout
        have hred : futSumUntilEof needle (calls + 1) s = some r0.retVal := by
          rw [futSumUntilEof]
          simp only [hrun, hout]
        rw [hred]
        congr 1
        omega
      | matched rg =>
        obtain ⟨ms, me⟩ := rg
        rcases (futLoop_ok (Or.inr rfl) hr).2.2.2.2 ms me hout with
          ⟨hf1, _, _, _, _, hf6, _, _, _⟩
        rcases findin_some_bounds hf1 with ⟨_, _, hsum⟩
        have hnp : 0 < needle.length := List.length_pos.mpr hn
        simp only [List.length_nil] at hf6
        have hred : futSumUntilEof needle (calls + 1) s =
            (futSumUntilEof needle calls r0.source).map (fun n => r0.retVal + n) := by
          rw [futSumUntilEof]
          simp only [hrun, hout]
        rw [hred]
        have hrec : futSumUntilEof needle calls r0.source = some (totalContent r0.source) := by
          apply ih
          · omega
          · exact hc2
          · omega
        rw [hrec]
        show some (r0.retVal + totalContent r0.source) = some (totalContent s)
        congr 1
        omega

/-! ### Claims -/

/-- C1: For every source and every pattern, when the scan loop (either
variant) finds a match range [s, e) in the accumulated bytes, it appends
exactly bytes [0, s) of the accumulation buffer to the before buffer,
appends exactly bytes [s, e) to the matched buffer, consumes from the
source exactly e bytes in total over the whole call, and already-buffered
bytes beyond the match end remain unconsumed in the source for the next
read. -/
theorem claim_C1 :
    (∀ (needle : List Byte) (s : Source) (b m : List Byte) (r : RunResult) (ms me : Nat),
      read_until_needle needle s b m = some (.ok r) →
      r.outcome = .matched (ms, me) →
      r.before = b ++ r.finalAvailable.take ms ∧
      r.matched = m ++ (r.finalAvailable.take me).drop ms ∧
      r.consumed = me ∧ r.retVal = me ∧
      r.source.buffered = r.finalAvailable.drop me) ∧
    (∀ (needle : List Byte) (s : Source) (b m : List Byte) (r : FutRunResult) (ms me : Nat),
      fut_read_until_needle needle s b m = some (.ok r) →
      r.outcome = .matched (ms, me) →
      r.before = b ++ r.buf.take ms ∧
      r.matched = m ++ (r.buf.take me).drop ms ∧
      r.consumed = me ∧ r.retVal = me ∧
      r.source.buffered = r.buf.drop me) := by
  constructor
  · intro needle s b m r ms me h hout
    rcases ioLoop_ok h with ⟨hc, hmat, _⟩
    rcases hmat ms me hout with ⟨_, h2, h3, h4, h5⟩
    exact ⟨h3, h4, by omega, h2, h5⟩
  · intro needle s b m r ms me h hout
    rcases futLoop_ok (Or.inr rfl) h with ⟨_, hcnt, htle, _, hmat⟩
    rcases hmat ms me hout with ⟨_, hf2, hf3, _, _, hf6, hf7, _, _⟩
    simp only [List.length_nil] at hf6
    refine ⟨hf2, hf3, by omega, by omega, hf7⟩

/-- C1 witness: Scenario with chunks [1,2,3] and [4,5] and needle [3,4]
in both variants. -/
theorem claim_C1_witness :
    (read_until_needle [3, 4] ⟨[], [SrcEvent.chunk [1, 2, 3], SrcEvent.chunk [4, 5]]⟩ [] [] =
        some (.ok ⟨4, .matched (2, 4), ⟨[5], []⟩, [1, 2], [3, 4], 4, [1, 2, 3, 4, 5]⟩) ∧
      fut_read_until_needle [3, 4] ⟨[], [SrcEvent.chunk [1, 2, 3], SrcEvent.chunk [4, 5]]⟩ [] [] =
        some (.ok ⟨4, .matched (2, 4), ⟨[5], []⟩, [1, 2], [3, 4], [1, 2, 3, 4, 5], 4, [4, 5]⟩)) ∧
    (([1, 2] : List Byte) = [] ++ ([1, 2, 3, 4, 5] : List Byte).take 2 ∧
      ([3, 4] : List Byte) = [] ++ (([1, 2, 3, 4, 5] : List Byte).take 4).drop 2 ∧
      (4 : Nat) = 4 ∧ (4 : Nat) = 4 ∧
      ([5] : List Byte) = ([1, 2, 3, 4, 5] : List Byte).drop 4) ∧
    (([1, 2] : List Byte) = [] ++ ([1, 2, 3, 4, 5] : List Byte).take 2 ∧
      ([3, 4] : List Byte) = [] ++ (([1, 2, 3, 4, 5] : List Byte).take 4).drop 2 ∧
      (4 : Nat) = 4 ∧ (4 : Nat) = 4 ∧
      ([5] : List Byte) = ([1, 2, 3, 4, 5] : List Byte).drop 4) :=
  ⟨⟨rfl, rfl⟩,
    claim_C1.1 [3, 4] ⟨[], [SrcEvent.chunk [1, 2, 3], SrcEvent.chunk [4, 5]]⟩ [] []
      ⟨4, .matched (2, 4), ⟨[5], []⟩, [1, 2], [3, 4], 4, [1, 2, 3, 4, 5]⟩ 2 4 rfl rfl,
    claim_C1.2 [3, 4] ⟨[], [SrcEvent.chunk [1, 2, 3], SrcEvent.chunk [4, 5]]⟩ [] []
      ⟨4, .matched (2, 4), ⟨[5], []⟩, [1, 2], [3, 4], [1, 2, 3, 4, 5], 4, [4, 5]⟩ 2 4 rfl rfl⟩

/-- C2: For every source and every pattern, when the scan reaches end of
stream without a match, all remaining accumulated bytes are appended to
the before buffer, the matched buffer is left byte-for-byte identical,
the remaining bytes are consumed (the source's window ends empty), and
the call returns success with the total bytes consumed. -/
theorem claim_C2 :
    (∀ (needle : List Byte) (s : Source) (b m : List Byte) (r : RunResult),
      read_until_needle needle s b m = some (.ok r) →
      r.outcome = .eof →
      r.before = b ++ r.finalAvailable ∧
      r.matched = m ∧
      r.retVal = r.consumed ∧
      r.source.buffered = []) ∧
    (∀ (needle : List Byte) (s : Source) (b m : List Byte) (r : FutRunResult),
      fut_read_until_needle needle s b m = some (.ok r) →
      r.outcome = .eof →
      r.before = b ++ r.buf ∧
      r.matched = m ∧
      r.retVal = r.consumed ∧
      r.source.buffered = []) := by
  constructor
  · intro needle s b m r h hout
    rcases ioLoop_ok h with ⟨hc, _, heof⟩
    rcases heof hout with ⟨h1, h2, h3, h4⟩
    exact ⟨h2, h3, by omega, h4⟩
  · intro needle s b m r h hout
    rcases futLoop_ok (Or.inr rfl) h with ⟨_, hcnt, _, heof, _⟩
    rcases heof hout with ⟨h1, h2, h3, _, _⟩
    exact ⟨h1, h2, by omega, h3⟩

/-- C2 witness: needle [9] never matches content [1,2], both variants. -/
theorem claim_C2_witness :
    (read_until_needle [9] ⟨[], [SrcEvent.chunk [1, 2]]⟩ [] [] =
        some (.ok ⟨2, .eof, ⟨[], []⟩, [1, 2], [], 2, [1, 2]⟩) ∧
      fut_read_until_needle [9] ⟨[], [SrcEvent.chunk [1, 2]]⟩ [] [] =
        some (.ok ⟨2, .eof, ⟨[], []⟩, [1, 2], [], [1, 2], 2, []⟩)) ∧
    (([1, 2] : List Byte) = [] ++ [1, 2] ∧ ([] : List Byte) = [] ∧
      (2 : Nat) = 2 ∧ ([] : List Byte) = []) ∧
    (([1, 2] : List Byte) = [] ++ [1, 2] ∧ ([] : List Byte) = [] ∧
      (2 : Nat) = 2 ∧ ([] : List Byte) = []) :=
  ⟨⟨rfl, rfl⟩,
    claim_C2.1 [9] ⟨[], [SrcEvent.chunk [1, 2]]⟩ [] []
      ⟨2, .eof, ⟨[], []⟩, [1, 2], [], 2, [1, 2]⟩ rfl rfl,
    claim_C2.2 [9] ⟨[], [SrcEvent.chunk [1, 2]]⟩ [] []
      ⟨2, .eof, ⟨[], []⟩, [1, 2], [], [1, 2], 2, []⟩ rfl rfl⟩

/-- C3 (amended): on a no-match iteration with new bytes, the suspending
variant consumes the full newly-available delta at the source level while
retaining those bytes in the accumulation buffer; the blocking variant
consumes nothing (consume of zero bytes) — its new delta is instead
tracked via total_buffered and the bytes stay in the source's own
window. -/
theorem claim_C3 :
    (∀ (needle available buf b m : List Byte) (it : FutIterOut),
      available ≠ [] →
      futIterBody needle available buf b m = .ok it →
      it.done = false →
      it.used = available.length ∧ it.buf = buf ++ available) ∧
    (∀ (needle available : List Byte) (tb : Nat) (b m : List Byte) (it : IterOut),
      ioIterBody needle available tb b m = .ok it →
      it.done = false →
      it.used = 0 ∧ it.buffered = available.length - tb) := by
  constructor
  · intro needle available buf b m it hav hb hdone
    have hae2 : available.isEmpty = false := by
      cases hq : available.isEmpty with
      | false => rfl
      | true => exact absurd (List.isEmpty_iff.mp hq) hav
    unfold futIterBody at hb
    simp only [hae2, Bool.false_eq_true, if_false] at hb
    cases hfi : findin needle (buf ++ available) with
    | error u =>
      simp only [hfi] at hb
      exact absurd hb (by simp)
    | ok o =>
      cases o with
      | some range =>
        simp only [hfi] at hb
        rcases Except.ok.inj hb with rfl
        exact absurd hdone (by simp)
      | none =>
        simp only [hfi] at hb
        rcases Except.ok.inj hb with rfl
        exact ⟨rfl, rfl⟩
  · intro needle available tb b m it hb hdone
    unfold ioIterBody at hb
    cases hfi : findin needle available with
    | error u =>
      simp only [hfi] at hb
      exact absurd hb (by simp)
    | ok o =>
      cases o with
      | some range =>
        simp only [hfi] at hb
        rcases Except.ok.inj hb with rfl
        exact absurd hdone (by simp)
      | none =>
        simp only [hfi] at hb
        by_cases hlt : 0 < available.length - tb
        · rw [if_pos hlt] at hb
          rcases Except.ok.inj hb with rfl
          exact ⟨rfl, rfl⟩
        · rw [if_neg hlt] at hb
          rcases Except.ok.inj hb with rfl
          exact absurd hdone (by simp)

/-- C3 counterexample: a blocking no-match iteration with a fresh delta of
two bytes consumes zero bytes at the source level, not the full delta as
the claim states for both variants. -/
theorem claim_C3_counterexample :
    ioIterBody [9, 9] [1, 2] 0 [] [] = .ok ⟨false, 0, 2, none, [], []⟩ ∧
    (0 : Nat) ≠ 2 :=
  ⟨rfl, by decide⟩

/-- C3 witness: a no-match iteration over two fresh bytes in each
variant. -/
theorem claim_C3_witness :
    (([1, 2] : List Byte) ≠ [] ∧
      futIterBody [9, 9] [1, 2] [] [] [] = .ok ⟨false, 2, none, [1, 2], [], []⟩ ∧
      ioIterBody [9, 9] [1, 2] 0 [] [] = .ok ⟨false, 0, 2, none, [], []⟩) ∧
    ((2 : Nat) = ([1, 2] : List Byte).length ∧ ([1, 2] : List Byte) = [] ++ [1, 2]) ∧
    ((0 : Nat) = 0 ∧ (2 : Nat) = ([1, 2] : List Byte).length - 0) :=
  ⟨⟨by decide, rfl, rfl⟩,
    claim_C3.1 [9, 9] [1, 2] [] [] [] ⟨false, 2, none, [1, 2], [], []⟩ (by decide) rfl rfl,
    claim_C3.2 [9, 9] [1, 2] 0 [] [] ⟨false, 0, 2, none, [], []⟩ rfl rfl⟩

/-- C4 (amended): the blocking variant silently retries an interrupted
fill without touching any state, so an interrupted event is invisible in
the run's result; the suspending variant propagates interrupted like any
other I/O error; fatal errors propagate immediately in both variants. -/
theorem claim_C4 :
    (∀ (needle buffered : List Byte) (evs : List SrcEvent) (b m : List Byte),
      read_until_needle needle ⟨buffered, .interrupted :: evs⟩ b m =
        read_until_needle needle ⟨buffered, evs⟩ b m) ∧
    (∀ (needle : List Byte) (evs : List SrcEvent) (b m : List Byte),
      fut_read_until_needle needle ⟨[], .interrupted :: evs⟩ b m =
        some (.error (.ioErr .interrupted))) ∧
    (∀ (needle buffered : List Byte) (code : Nat) (evs : List SrcEvent) (b m : List Byte),
      read_until_needle needle ⟨buffered, .fatal code :: evs⟩ b m =
        some (.error (.ioErr (.other code)))) ∧
    (∀ (needle : List Byte) (code : Nat) (evs : List SrcEvent) (b m : List Byte),
      fut_read_until_needle needle ⟨[], .fatal code :: evs⟩ b m =
        some (.error (.ioErr (.other code)))) :=
  ⟨fun _ _ _ _ _ => rfl, fun _ _ _ _ => rfl, fun _ _ _ _ _ _ => rfl, fun _ _ _ _ _ => rfl⟩

/-- C4 counterexample: with the suspending variant, a source reporting one
interrupted condition before yielding data fails the whole operation,
unlike the source that yields the data immediately — the results differ. -/
theorem claim_C4_counterexample :
    fut_read_until_needle [120] ⟨[], [.interrupted, .chunk [120]]⟩ [] [] =
      some (.error (.ioErr .interrupted)) ∧
    fut_read_until_needle [120] ⟨[], [.chunk [120]]⟩ [] [] ≠
      some (.error (.ioErr .interrupted)) := by
  constructor
  · rfl
  · intro hc
    have hv : fut_read_until_needle [120] ⟨[], [.chunk [120]]⟩ [] [] =
        some (.ok ⟨1, .matched (0, 1), ⟨[], []⟩, [], [120], [120], 1, [120]⟩) := rfl
    rw [hv] at hc
    have h2 := Option.some.inj hc
    exact Except.noConfusion h2

/-- C5 (code behaviour at the failing input): a zero-length literal
pattern does not produce the specified present-optional empty range at
offset zero; the matcher propagates the panic of slice windows with a
zero window size. -/
theorem claim_C5 : findin [] [104, 105] = .error () := rfl

/-- C6: the value returned by a successful read_until_needle call equals
the total number of bytes consumed from the source during the call, in
both variants and for both outcomes. -/
theorem claim_C6 :
    (∀ (needle : List Byte) (s : Source) (b m : List Byte) (r : RunResult),
      read_until_needle needle s b m = some (.ok r) → r.retVal = r.consumed) ∧
    (∀ (needle : List Byte) (s : Source) (b m : List Byte) (r : FutRunResult),
      fut_read_until_needle needle s b m = some (.ok r) → r.retVal = r.consumed) := by
  constructor
  · intro needle s b m r h
    rcases ioLoop_ok h with ⟨hc, _, _⟩
    omega
  · intro needle s b m r h
    rcases futLoop_ok (Or.inr rfl) h with ⟨_, hcnt, _, _, _⟩
    omega

/-- C6 witness: a matched run in each variant. -/
theorem claim_C6_witness :
    (read_until_needle [2] ⟨[], [SrcEvent.chunk [1, 2, 3]]⟩ [] [] =
        some (.ok ⟨2, .matched (1, 2), ⟨[3], []⟩, [1], [2], 2, [1, 2, 3]⟩) ∧
      fut_read_until_needle [2] ⟨[], [SrcEvent.chunk [1, 2, 3]]⟩ [] [] =
        some (.ok ⟨2, .matched (1, 2), ⟨[3], []⟩, [1], [2], [1, 2, 3], 2, [1, 2, 3]⟩)) ∧
    ((2 : Nat) = 2 ∧ (2 : Nat) = 2) :=
  ⟨⟨rfl, rfl⟩,
    claim_C6.1 [2] ⟨[], [SrcEvent.chunk [1, 2, 3]]⟩ [] []
      ⟨2, .matched (1, 2), ⟨[3], []⟩, [1], [2], 2, [1, 2, 3]⟩ rfl,
    claim_C6.2 [2] ⟨[], [SrcEvent.chunk [1, 2, 3]]⟩ [] []
      ⟨2, .matched (1, 2), ⟨[3], []⟩, [1], [2], [1, 2, 3], 2, [1, 2, 3]⟩ rfl⟩

/-- C7 (amended): for every haystack and every NON-empty literal pattern,
findin returns the leftmost occurrence as the range [s, s + len P), and
none exactly when no occurrence exists; the empty pattern panics instead
of returning a result. -/
theorem claim_C7 (P H : List Byte) (hP : P ≠ []) :
    (∀ s e, findin P H = .ok (some (s, e)) ↔
      (e = s + P.length ∧ matchAt P H s ∧ ∀ t, t < s → ¬ matchAt P H t)) ∧
    (findin P H = .ok none ↔ ∀ s, ¬ matchAt P H s) :=
  ⟨fun _ _ => findin_some_iff hP, findin_none_iff hP⟩

/-- C7 counterexample: for the empty pattern and haystack [7], the lowest
occurrence index 0 exists (the empty pattern trivially occurs), yet
findin returns neither that range nor none — it panics. -/
theorem claim_C7_counterexample :
    findin [] [7] ≠ .ok (some (0, 0)) ∧ findin [] [7] ≠ .ok none := by
  have he : findin [] [7] = Except.error () := rfl
  constructor
  · intro hc
    rw [he] at hc
    exact Except.noConfusion hc
  · intro hc
    rw [he] at hc
    exact Except.noConfusion hc

/-- C7 witness: pattern [1] in haystack [0, 1]. -/
theorem claim_C7_witness :
    ([1] : List Byte) ≠ [] ∧
      (findin [1] [0, 1] = .ok none ↔ ∀ s, ¬ matchAt [1] [0, 1] s) :=
  ⟨by decide, (claim_C7 [1] [0, 1] (by decide)).2⟩

/-- C8: for a bounded well-behaved source and a non-empty pattern, the sum
of the bytes-consumed return values across repeated calls until EOF equals
the source's total byte length, in both variants. -/
theorem claim_C8 (needle : List Byte) (s : Source)
    (hn : needle ≠ []) (hclean : cleanEvents s.events = true) :
    ioSumUntilEof needle (totalContent s + 1) s = some (totalContent s) ∧
    futSumUntilEof needle (totalContent s + 1) s = some (totalContent s) :=
  ⟨ioSumUntilEof_eq hn (totalContent s) s (totalContent s + 1) (le_refl _) hclean (le_refl _),
    futSumUntilEof_eq hn (totalContent s) s (totalContent s + 1) (le_refl _) hclean (le_refl _)⟩

/-- C8 witness: needle [1] over the three-byte source [0, 1, 2]. -/
theorem claim_C8_witness :
    (([1] : List Byte) ≠ [] ∧
      cleanEvents (Source.mk [] [SrcEvent.chunk [0, 1, 2]]).events = true) ∧
    (ioSumUntilEof [1] (totalContent ⟨[], [SrcEvent.chunk [0, 1, 2]]⟩ + 1)
        ⟨[], [SrcEvent.chunk [0, 1, 2]]⟩ =
        some (totalContent ⟨[], [SrcEvent.chunk [0, 1, 2]]⟩) ∧
      futSumUntilEof [1] (totalContent ⟨[], [SrcEvent.chunk [0, 1, 2]]⟩ + 1)
        ⟨[], [SrcEvent.chunk [0, 1, 2]]⟩ =
        some (totalContent ⟨[], [SrcEvent.chunk [0, 1, 2]]⟩)) :=
  ⟨⟨by decide, by decide⟩,
    claim_C8 [1] ⟨[], [SrcEvent.chunk [0, 1, 2]]⟩ (by decide) (by decide)⟩

/-- C9: whenever findin returns a range for a non-empty literal pattern,
the range is valid for indexing the haystack: the end does not exceed the
haystack length, the start does not exceed the end, and the width equals
the pattern length. -/
theorem claim_C9 (P H : List Byte) (s e : Nat) (hP : P ≠ [])
    (h : findin P H = .ok (some (s, e))) :
    e ≤ H.length ∧ s ≤ e ∧ e - s = P.length := by
  rcases findin_some_bounds h with ⟨h1, h2, h3⟩
  omega

/-- C9 witness: pattern [1] found at (1, 2) in [0, 1]. -/
theorem claim_C9_witness :
    (([1] : List Byte) ≠ [] ∧ findin [1] [0, 1] = .ok (some (1, 2))) ∧
    (2 ≤ ([0, 1] : List Byte).length ∧ 1 ≤ 2 ∧ 2 - 1 = ([1] : List Byte).length) :=
  ⟨⟨by decide, rfl⟩, claim_C9 [1] [0, 1] 1 2 (by decide) rfl⟩

/-- C10: in the suspending variant, when a match (ms, me) is found, the
match end lies within or after the newly appended chunk — me is at least
buf.len minus available.len — so the per-iteration consumed count
available.len minus (buf.len minus me) never underflows. -/
theorem claim_C10 (needle : List Byte) (s : Source) (b m : List Byte)
    (r : FutRunResult) (ms me : Nat)
    (h : fut_read_until_needle needle s b m = some (.ok r))
    (ho : r.outcome = .matched (ms, me)) :
    r.buf.length - r.finalAvailable.length ≤ me ∧
    r.buf.length - me ≤ r.finalAvailable.length := by
  rcases futLoop_ok (Or.inr rfl) h with ⟨_, _, _, _, hmat⟩
  rcases hmat ms me ho with ⟨_, _, _, _, _, _, _, hf8, hf9⟩
  exact ⟨hf9, hf8⟩

/-- C10 witness: the match straddles the chunk boundary in a two-chunk
source. -/
theorem claim_C10_witness :
    (fut_read_until_needle [3, 4] ⟨[], [SrcEvent.chunk [1, 2, 3], SrcEvent.chunk [4, 5]]⟩ [] [] =
        some (.ok ⟨4, .matched (2, 4), ⟨[5], []⟩, [1, 2], [3, 4], [1, 2, 3, 4, 5], 4, [4, 5]⟩)) ∧
    (([1, 2, 3, 4, 5] : List Byte).length - ([4, 5] : List Byte).length ≤ 4 ∧
      ([1, 2, 3, 4, 5] : List Byte).length - 4 ≤ ([4, 5] : List Byte).length) :=
  ⟨rfl,
    claim_C10 [3, 4] ⟨[], [SrcEvent.chunk [1, 2, 3], SrcEvent.chunk [4, 5]]⟩ [] []
      ⟨4, .matched (2, 4), ⟨[5], []⟩, [1, 2], [3, 4], [1, 2, 3, 4, 5], 4, [4, 5]⟩ 2 4 rfl rfl⟩

end UntilNeedle
